import Mathlib

/-!
# Verification of the countdown punch-log parser (`src/parser.py`)

Shallow embedding of the time-tracking log parser:

* the punch state machine of `parse` (lines 114-153), with the transition
  table, session creation, duration accrual and the unconditional
  `last_timestamp` update;
* the tag/notes tokenization of `parse_row` (lines 100-111), with Python
  string splitting embedded over `List Char`;
* the filtering pipeline of `report` (lines 68-91) and the adjacent-merge
  grouping of `group_report` (lines 45-65);
* `duration_into_units` (lines 8-20), with Python floats modelled as exact
  rationals and Python `round` as round-half-to-even;
* the invoice line-item pipeline of the `__main__` block (lines 176-205).

Python lists mutated at index `-1` are modelled as Lean lists whose *head*
is the most recently appended element; the final session list is reversed
back into file order.  Calendar formatting (`datetime.strftime`) is kept
abstract: every theorem that involves a bucket/day key quantifies over the
key function, since the properties at stake hold for all of them.
-/

namespace Countdown

/-- An action code of a punch line: `i`, `o`, `p`, `u` (line 103). -/
inductive Action where
  | i | o | p | u
deriving DecidableEq, Repr

/-- The `chars` dictionary of `parse` (lines 115-120): column index of each
action code in the transition table. -/
def chars : Action → Nat
  | .i => 1
  | .p => 2
  | .u => 3
  | .o => 0

/-- The transition `table` of `parse` (lines 122-127); row = current phase
(0 = no timer, 1 = running, 2 = paused, 3 = unpaused), column = `chars`
of the action, `-1` = illegal.  Rows other than 0-3 are never consulted:
the machine raises as soon as the phase would become `-1` (line 137-138). -/
def table (row : Int) (col : Nat) : Int :=
  if row = 0 then [(-1 : Int), 1, -1, -1].getD col (-1)
  else if row = 1 then [(0 : Int), -1, 2, -1].getD col (-1)
  else if row = 2 then [(0 : Int), 1, -1, 3].getD col (-1)
  else if row = 3 then [(0 : Int), 1, 2, -1].getD col (-1)
  else -1

/-- One parsed punch event, the 4-tuple returned by `parse_row` (line 111):
timestamp in epoch seconds, action code, tag, notes. -/
structure Event where
  timestamp : Int
  action : Action
  tag : String
  notes : String
deriving DecidableEq, Repr

/-- One session dict as appended by `parse` (lines 141-147). -/
structure Session where
  start_time : Int
  last_timestamp : Int
  tag : String
  duration : Int
  notes : String
deriving DecidableEq, Repr

/-- The mutable state of `parse`: `state = [prev, cur]` (line 128) and the
session list `stack` (line 129), held here with the most recently appended
session (`stack[-1]` in Python) at the head. -/
structure MachineState where
  prev : Int
  cur : Int
  stack : List Session
deriving DecidableEq, Repr

/-- How one iteration of `parse`'s loop can fail: the explicit
`raise Exception` for an illegal transition (lines 137-138, carrying the
0-based row index and the offending action code), or Python's `IndexError`
on `stack[-1]` when the session list is empty (lines 150, 152). -/
inductive StepError where
  | illegal (i : Nat) (action : Action)
  | indexError
deriving DecidableEq, Repr

/-- One iteration of the loop body of `parse` (lines 134-152) on event `e`
at row index `i`. -/
def step (i : Nat) (e : Event) (m : MachineState) : Except StepError MachineState :=
  let s0 := m.cur
  let s1 := table m.cur (chars e.action)
  if s1 = -1 then
    .error (.illegal i e.action)
  else
    let stack :=
      if s0 = 0 ∧ s1 = 1 then
        { start_time := e.timestamp, last_timestamp := e.timestamp,
          tag := e.tag, duration := 0, notes := e.notes : Session } :: m.stack
      else m.stack
    if s0 = 1 ∨ s0 = 3 then
      match stack with
      | [] => .error .indexError
      | top :: rest =>
        let top := { top with duration := top.duration + (e.timestamp - top.last_timestamp) }
        .ok ⟨s0, s1, { top with last_timestamp := e.timestamp } :: rest⟩
    else
      match stack with
      | [] => .error .indexError
      | top :: rest =>
        .ok ⟨s0, s1, { top with last_timestamp := e.timestamp } :: rest⟩

/-- The loop of `parse` over the remaining events, starting at row index
`i` in machine state `m`. -/
def parseFrom (i : Nat) (m : MachineState) : List Event → Except StepError MachineState
  | [] => .ok m
  | e :: rest =>
    match step i e m with
    | .error err => .error err
    | .ok m' => parseFrom (i + 1) m' rest

/-- `parse` (lines 114-153) at the event level: run the state machine from
`state = [0, 0]`, `stack = []` over the parsed rows and return the session
list in file order. -/
def parse (events : List Event) : Except StepError (List Session) :=
  match parseFrom 0 ⟨0, 0, []⟩ events with
  | .error err => .error err
  | .ok m => .ok m.stack.reverse

/-- Python's built-in `round` to zero decimal places: round half to even.
The floats of `duration_into_units` are modelled as exact rationals. -/
def pyRound (q : ℚ) : ℤ :=
  if q - ⌊q⌋ < 1/2 then ⌊q⌋
  else if q - ⌊q⌋ > 1/2 then ⌊q⌋ + 1
  else if ⌊q⌋ % 2 = 0 then ⌊q⌋ else ⌊q⌋ + 1

/-- Rendering of a Python float holding the value `k/100` by an f-string:
the shortest digit run, never more than two decimals, at least one
(`150 ↦ "1.5"`, `102 ↦ "1.02"`, `100 ↦ "1.0"`, `5 ↦ "0.05"`). -/
def reprCenti (k : ℤ) : String :=
  let sign := if k < 0 then "-" else ""
  let a := k.natAbs
  let ip := a / 100
  let fr := a % 100
  if fr = 0 then sign ++ toString ip ++ ".0"
  else if fr % 10 = 0 then sign ++ toString ip ++ "." ++ toString (fr / 10)
  else if fr < 10 then sign ++ toString ip ++ ".0" ++ toString fr
  else sign ++ toString ip ++ "." ++ toString fr

/-- `duration_into_units` (lines 8-20): seconds rendered literally for
unit `s` (the fallback branch), the quotient by 60 (`m`) or 3600 (`h`)
rendered as a plain integer when the division is exact, else rounded to
two decimal places.  Python's float division and `round(val, 2)` are
modelled as exact rational arithmetic with round half to even, and the
rounded value `pyRound(val*100)/100` is rendered by `reprCenti`. -/
def duration_into_units (duration_in_seconds : Int) (desired_units : String) : String :=
  if desired_units = "m" then
    (if duration_in_seconds % 60 = 0 then toString (duration_in_seconds / 60)
     else reprCenti (pyRound ((duration_in_seconds : ℚ) / 60 * 100))) ++ "m"
  else if desired_units = "h" then
    (if duration_in_seconds % 3600 = 0 then toString (duration_in_seconds / 3600)
     else reprCenti (pyRound ((duration_in_seconds : ℚ) / 3600 * 100))) ++ "h"
  else toString duration_in_seconds ++ "s"

/-- The sort order of `report` line 76: ascending `(start_time, tag)`. -/
def sessionLE (a b : Session) : Prop :=
  a.start_time < b.start_time ∨ (a.start_time = b.start_time ∧ a.tag ≤ b.tag)

instance : DecidableRel sessionLE := fun a b => by
  unfold sessionLE; infer_instance

/-- The filtering pipeline of `report` (lines 76-87): sort by
`(start_time, tag)`, keep the exact tag matches, keep
`start_time >= begin` (inclusive), keep `last_timestamp < end`
(exclusive).  Grouping and printing (lines 89-98) consume this list. -/
def reportFilter (data : List Session) (begin_ end_ : Option Int)
    (tag : Option String) : List Session :=
  let data := List.insertionSort sessionLE data
  let data := match tag with
    | some t => data.filter (fun row => decide (row.tag = t))
    | none => data
  let data := match begin_ with
    | some b => data.filter (fun row => decide (row.start_time ≥ b))
    | none => data
  match end_ with
  | some e => data.filter (fun row => decide (row.last_timestamp < e))
  | none => data

/-- The sort order of `group_report` line 48: ascending
`(bucket_key, tag)`. -/
def keyLE (a b : String × String × Int) : Prop :=
  a.1 < b.1 ∨ (a.1 = b.1 ∧ a.2.1 ≤ b.2.1)

instance : DecidableRel keyLE := fun a b => by
  unfold keyLE; infer_instance

/-- The body of the merge loop of `group_report` (lines 51-60): Python's
`result` list is held reversed, so `result[-1]` is the head.  A row whose
tag and bucket key both equal the last row's is merged by summing the
duration; any other row is appended. -/
def mergeStep (result : List (String × String × Int))
    (row : String × String × Int) : List (String × String × Int) :=
  match result with
  | [] => [row]
  | last :: rest =>
    if row.2.1 = last.2.1 ∧ row.1 = last.1 then
      (last.1, last.2.1, last.2.2 + row.2.2) :: rest
    else
      row :: last :: rest

/-- The merge loop of `group_report` (lines 50-60), with the result put
back into Python's order. -/
def mergeRows (keys : List (String × String × Int)) :
    List (String × String × Int) :=
  (keys.foldl mergeStep []).reverse

/-- `group_report` (lines 45-65) up to its printing loop: build
`(bucket_key, tag, duration)` triples, sort by `(bucket_key, tag)`, merge
adjacent equal pairs.  The strftime bucket-key derivation
(`get_date_key`) is abstracted as `keyf`; every theorem below quantifies
over it, covering all grouping granularities. -/
def group_report (keyf : Int → String) (data : List Session) :
    List (String × String × Int) :=
  let keys := data.map (fun row => (keyf row.start_time, row.tag, row.duration))
  let keys := List.insertionSort keyLE keys
  mergeRows keys

/-- Event timestamps are non-decreasing in file order. -/
def Chronological (events : List Event) : Prop :=
  List.Pairwise (fun a b => a.timestamp ≤ b.timestamp) events

/-- The per-session record invariant of section 3 of the spec. -/
def SessionInv (s : Session) : Prop :=
  s.start_time ≤ s.last_timestamp ∧ 0 ≤ s.duration ∧
    s.duration ≤ s.last_timestamp - s.start_time

instance : DecidablePred SessionInv := fun s => by
  unfold SessionInv; infer_instance

/-- Python `str.split(" ")` over characters: cut at every single space;
consecutive separators yield empty pieces, and the empty string yields
one empty piece. -/
def splitSpace : List Char → List (List Char)
  | [] => [[]]
  | c :: rest =>
    if c = ' ' then [] :: splitSpace rest
    else
      match splitSpace rest with
      | [] => [[c]]
      | p :: ps => (c :: p) :: ps

/-- Python `str.split("  ")` over characters: cut at each leftmost
occurrence of two consecutive spaces, scanning left to right without
overlap. -/
def splitDouble : List Char → List (List Char)
  | [] => [[]]
  | [c] => [[c]]
  | c :: d :: rest =>
    if c = ' ' ∧ d = ' ' then [] :: splitDouble rest
    else
      match splitDouble (d :: rest) with
      | [] => [[c]]
      | p :: ps => (c :: p) :: ps

/-- Python `" ".join(pieces)` over characters. -/
def joinSpace : List (List Char) → List Char
  | [] => []
  | [p] => p
  | p :: ps => p ++ ' ' :: joinSpace ps

/-- Python `str.strip()`: drop leading and trailing whitespace. -/
def pyStrip (s : List Char) : List Char :=
  ((s.dropWhile Char.isWhitespace).reverse.dropWhile Char.isWhitespace).reverse

/-- Whether two consecutive spaces occur somewhere in the string. -/
def hasDbl : List Char → Bool
  | [] => false
  | [_] => false
  | c :: d :: rest => (c = ' ' && d = ' ') || hasDbl (d :: rest)

/-- `parse_row` (lines 100-111) restricted to its tag/notes tokenization:
strip the row, split on single spaces, rejoin the tokens after the first
three with single spaces, split that on double spaces, append one empty
piece when fewer than two pieces, and unpack — Python's
`tag, notes = tag_and_notes` raises `ValueError` when more than two
pieces remain.  The action-code check and the timestamp parse
(lines 103-105) affect neither the split nor the returned pair and are
not modelled. -/
def parse_row_tag_notes (row : List Char) : Except String (List Char × List Char) :=
  let row_split := splitSpace (pyStrip row)
  let tag_and_notes := splitDouble (joinSpace (row_split.drop 3))
  let tag_and_notes :=
    if tag_and_notes.length < 2 then tag_and_notes ++ [[]] else tag_and_notes
  match tag_and_notes with
  | [tag, notes] => .ok (tag, notes)
  | _ => .error "ValueError"

/-- One entry of the `results` list of the invoice view (lines 184-189):
the calendar day of the session start, the session notes, and the
duration in hours and in minutes (Python floats as exact rationals). -/
structure ResultRow where
  day : String
  notes : String
  hours : ℚ
  minutes : ℚ
deriving DecidableEq, Repr

/-- The session test of lines 181-183: exact tag match, and the `%Y-%m`
month key of the start time inside the `begin`/`end` arguments by string
comparison, each bound checked only when given. -/
def invoiceMatches (monthKey : Int → String) (tag : String)
    (begin_date end_date : Option String) (item : Session) : Bool :=
  (item.tag == tag) &&
  (match begin_date with
   | none => true
   | some b => decide (b ≤ monthKey item.start_time)) &&
  (match end_date with
   | none => true
   | some e => decide (monthKey item.start_time < e))

/-- Lines 176-189: one result row per matching session, with the
`%Y-%m-%d` and `%Y-%m` strftime keys abstracted as `dayKey` and
`monthKey`. -/
def buildResults (dayKey monthKey : Int → String) (stack : List Session)
    (tag : String) (begin_date end_date : Option String) : List ResultRow :=
  stack.filterMap fun item =>
    if invoiceMatches monthKey tag begin_date end_date item then
      some ⟨dayKey item.start_time, item.notes,
        (item.duration : ℚ) / 3600, (item.duration : ℚ) / 60⟩
    else none

/-- Lines 190-192: `grouped.setdefault(row["day"], []).append(row)` on an
insertion-ordered dict, modelled as an association list. -/
def addToGroup (groups : List (String × List ResultRow)) (row : ResultRow) :
    List (String × List ResultRow) :=
  match groups with
  | [] => [(row.day, [row])]
  | (k, rs) :: rest =>
    if k = row.day then (k, rs ++ [row]) :: rest
    else (k, rs) :: addToGroup rest row

/-- The grouping loop of lines 190-192. -/
def groupByDay (rows : List ResultRow) : List (String × List ResultRow) :=
  rows.foldl addToGroup []

/-- One invoice line item (lines 194-202): the calendar day, the
deduplicated non-empty notes (Python's `set` iterates in unspecified
order, so the parts are kept as a list and every property stated about
them below is order-independent), their newline join, and the quantity
`sum(minutes)/60`. -/
structure LineItem where
  date : String
  notesParts : List String
  notes : String
  quantity : ℚ
deriving DecidableEq, Repr

/-- Lines 195-202: build one line item from one day's rows. -/
def mkLineItem (date : String) (rows : List ResultRow) : LineItem :=
  let parts :=
    ((rows.map (fun r => r.notes)).filter (fun nt => decide (nt.length > 0))).dedup
  ⟨date, parts, String.intercalate "\n" parts,
    ((rows.map (fun r => r.minutes)).sum) / 60⟩

/-- The sort order of line 204: ascending date string. -/
def itemLE (a b : LineItem) : Prop := a.date ≤ b.date

instance : DecidableRel itemLE := fun a b => by
  unfold itemLE; infer_instance

instance : IsTotal LineItem itemLE := ⟨fun a b => le_total a.date b.date⟩

instance : IsTrans LineItem itemLE := ⟨fun _ _ _ h1 h2 => le_trans h1 h2⟩

/-- The invoice view of the `__main__` block (lines 176-205): filter the
sessions, group by calendar day, build line items, sort by date. -/
def line_items (dayKey monthKey : Int → String) (stack : List Session)
    (tag : String) (begin_date end_date : Option String) : List LineItem :=
  let results := buildResults dayKey monthKey stack tag begin_date end_date
  let grouped := groupByDay results
  List.insertionSort itemLE (grouped.map (fun g => mkLineItem g.1 g.2))

/-- First-match association lookup, a proof device for `groupByDay`. -/
def lookupDay (d : String) : List (String × List ResultRow) → Option (List ResultRow)
  | [] => none
  | (k, rs) :: rest => if k = d then some rs else lookupDay d rest

theorem parseFrom_append (l1 l2 : List Event) (i : Nat) (m : MachineState) :
    parseFrom i m (l1 ++ l2) =
      match parseFrom i m l1 with
      | .error err => .error err
      | .ok m' => parseFrom (i + l1.length) m' l2 := by
  induction l1 generalizing i m with
  | nil => simp [parseFrom]
  | cons e rest ih =>
    simp only [List.cons_append, parseFrom, List.length_cons]
    cases hstep : step i e m with
    | error err => rfl
    | ok m' =>
      dsimp only
      rw [List.append_eq, ih]
      have harith : i + 1 + rest.length = i + (rest.length + 1) := by omega
      rw [harith]

/-- From phase 0 (Idle) the only action the table allows is clock-in. -/
theorem table_idle_legal {a : Action} (h : table 0 (chars a) ≠ -1) : a = .i := by
  cases a <;> simp [table, chars] at h ⊢

/-- A non-`-1` table entry is only found in rows 0-3. -/
theorem table_ne_rows {r : Int} {c : Nat} (h : table r c ≠ -1) :
    r = 0 ∨ r = 1 ∨ r = 2 ∨ r = 3 := by
  by_contra hc
  push_neg at hc
  obtain ⟨h0, h1, h2, h3⟩ := hc
  simp [table, h0, h1, h2, h3] at h

/-- Exhaustive description of a successful loop iteration: the phases shift
as `state[0], state[1] = state[1], table[state[1]][chars[char]]`, and the
session list either gains a fresh session (`Idle → Running`), or has its
top accrue the elapsed time (previous phase Running/Unpaused) with the
`last_timestamp` refresh, or only gets the `last_timestamp` refresh. -/
theorem step_ok_destruct {i : Nat} {e : Event} {m m' : MachineState}
    (h : step i e m = .ok m') :
    m'.prev = m.cur ∧ m'.cur = table m.cur (chars e.action) ∧
    table m.cur (chars e.action) ≠ -1 ∧
    ((m.cur = 0 ∧ m'.stack = ⟨e.timestamp, e.timestamp, e.tag, 0, e.notes⟩ :: m.stack)
     ∨ ((m.cur = 1 ∨ m.cur = 3) ∧ ∃ top rest, m.stack = top :: rest ∧
         m'.stack = ⟨top.start_time, e.timestamp, top.tag,
           top.duration + (e.timestamp - top.last_timestamp), top.notes⟩ :: rest)
     ∨ (m.cur = 2 ∧ ∃ top rest, m.stack = top :: rest ∧
         m'.stack = ⟨top.start_time, e.timestamp, top.tag, top.duration, top.notes⟩ :: rest)) := by
  obtain ⟨t, a, tg, n⟩ := e
  obtain ⟨p, c, stk⟩ := m
  have h1 : ¬ table c (chars a) = -1 := by
    intro hc
    simp [step, hc] at h
  rcases table_ne_rows h1 with hc | hc | hc | hc <;> subst hc <;> cases a <;>
    (try (simp [step, table, chars] at h; done)) <;>
    (cases stk <;> simp [step, table, chars] at h <;> subst h <;> simp [table, chars])

/-- Characterization of a failing loop iteration: either the explicit
illegal-transition `raise` fired (the table entry is `-1`), or the
`IndexError` on `stack[-1]` fired, which needs an empty session list in a
non-Idle phase. -/
theorem step_error_destruct {i : Nat} {e : Event} {m : MachineState} {err : StepError}
    (h : step i e m = .error err) :
    (err = .illegal i e.action ∧ table m.cur (chars e.action) = -1) ∨
    (err = .indexError ∧ m.stack = [] ∧ m.cur ≠ 0) := by
  by_cases h1 : table m.cur (chars e.action) = -1
  · left
    simp [step, h1] at h
    simp [← h, h1]
  · right
    obtain ⟨t, a, tg, n⟩ := e
    obtain ⟨p, c, stk⟩ := m
    rcases table_ne_rows h1 with hc | hc | hc | hc <;> subst hc <;> cases a <;>
      (try (simp [table, chars] at h1; done)) <;>
      (cases stk <;> simp [step, table, chars] at h <;> simp_all)

/-- When an empty session list guarantees phase Idle, a loop iteration
either succeeds and leaves the session list non-empty, or fails with the
illegal-transition error — never with `IndexError`. -/
theorem step_no_index {i : Nat} {e : Event} {m : MachineState}
    (hm : m.stack = [] → m.cur = 0) :
    (∃ m', step i e m = .ok m' ∧ m'.stack ≠ []) ∨
      step i e m = .error (.illegal i e.action) := by
  cases hres : step i e m with
  | ok m' =>
    left
    rcases (step_ok_destruct hres).2.2.2 with ⟨-, hs⟩ | ⟨-, top, rest, -, hs⟩ | ⟨-, top, rest, -, hs⟩ <;>
      exact ⟨m', rfl, by rw [hs]; simp⟩
  | error err =>
    rcases step_error_destruct hres with ⟨rfl, -⟩ | ⟨rfl, hstk, hc⟩
    · exact Or.inr rfl
    · exact absurd (hm hstk) hc

/-- Running the loop from a state where an empty session list guarantees
phase Idle either succeeds or stops at an illegal transition; the
`IndexError` branches of the `stack[-1]` accesses are unreachable. -/
theorem parseFrom_no_index {events : List Event} {i : Nat} {m : MachineState}
    (hm : m.stack = [] → m.cur = 0) :
    (∃ m', parseFrom i m events = .ok m') ∨
      ∃ j a, parseFrom i m events = .error (.illegal j a) := by
  induction events generalizing i m with
  | nil => exact Or.inl ⟨m, rfl⟩
  | cons e rest ih =>
    rcases @step_no_index i e m hm with ⟨m', hok, hne⟩ | hbad
    · have hm' : m'.stack = [] → m'.cur = 0 := fun hc => absurd hc hne
      rcases @ih (i + 1) m' hm' with ⟨m'', h⟩ | ⟨j, a, h⟩
      · exact Or.inl ⟨m'', by simp [parseFrom, hok, h]⟩
      · exact Or.inr ⟨j, a, by simp [parseFrom, hok, h]⟩
    · exact Or.inr ⟨i, e.action, by simp [parseFrom, hbad]⟩

theorem mergeStep_sum (result : List (String × String × Int))
    (row : String × String × Int) :
    ((mergeStep result row).map (fun r => r.2.2)).sum =
      (result.map (fun r => r.2.2)).sum + row.2.2 := by
  cases result with
  | nil => simp [mergeStep]
  | cons last rest =>
    simp only [mergeStep]
    split <;> simp <;> ring

theorem foldl_mergeStep_sum (l acc : List (String × String × Int)) :
    ((l.foldl mergeStep acc).map (fun r => r.2.2)).sum =
      (acc.map (fun r => r.2.2)).sum + (l.map (fun r => r.2.2)).sum := by
  induction l generalizing acc with
  | nil => simp
  | cons e rest ih =>
    rw [List.foldl_cons, ih, mergeStep_sum]
    simp
    ring

theorem parseFrom_invariant {events : List Event} {i : Nat} {m m' : MachineState}
    (h : parseFrom i m events = .ok m')
    (hchron : Chronological events)
    (hstack : ∀ s ∈ m.stack, SessionInv s)
    (hfuture : ∀ s ∈ m.stack, ∀ e ∈ events, s.last_timestamp ≤ e.timestamp) :
    ∀ s ∈ m'.stack, SessionInv s := by
  induction events generalizing i m with
  | nil =>
    simp only [parseFrom, Except.ok.injEq] at h
    exact h ▸ hstack
  | cons e rest ih =>
    simp only [parseFrom] at h
    cases hstep : step i e m with
    | error err => rw [hstep] at h; cases h
    | ok m1 =>
      rw [hstep] at h
      rw [Chronological, List.pairwise_cons] at hchron
      obtain ⟨hhead, hrest⟩ := hchron
      refine ih h hrest ?_ ?_
      · intro s hs
        rcases (step_ok_destruct hstep).2.2.2 with ⟨-, hnew⟩ | ⟨-, top, r, hstk, hnew⟩ |
            ⟨-, top, r, hstk, hnew⟩ <;> rw [hnew] at hs
        · rcases List.mem_cons.mp hs with rfl | hs
          · exact ⟨le_refl _, le_refl _, by simp⟩
          · exact hstack s hs
        · rcases List.mem_cons.mp hs with rfl | hs
          · have hinv := hstack top (by rw [hstk]; exact List.mem_cons_self _ _)
            have hlast : top.last_timestamp ≤ e.timestamp :=
              hfuture top (by rw [hstk]; exact List.mem_cons_self _ _) e (List.mem_cons_self _ _)
            obtain ⟨h1, h2, h3⟩ := hinv
            simp only [SessionInv] at h1 h2 h3 ⊢
            refine ⟨by omega, by omega, by omega⟩
          · exact hstack s (by rw [hstk]; exact List.mem_cons_of_mem _ hs)
        · rcases List.mem_cons.mp hs with rfl | hs
          · have hinv := hstack top (by rw [hstk]; exact List.mem_cons_self _ _)
            have hlast : top.last_timestamp ≤ e.timestamp :=
              hfuture top (by rw [hstk]; exact List.mem_cons_self _ _) e (List.mem_cons_self _ _)
            obtain ⟨h1, h2, h3⟩ := hinv
            simp only [SessionInv] at h1 h2 h3 ⊢
            refine ⟨by omega, by omega, by omega⟩
          · exact hstack s (by rw [hstk]; exact List.mem_cons_of_mem _ hs)
      · intro s hs e' he'
        rcases (step_ok_destruct hstep).2.2.2 with ⟨-, hnew⟩ | ⟨-, top, r, hstk, hnew⟩ |
            ⟨-, top, r, hstk, hnew⟩ <;> rw [hnew] at hs
        · rcases List.mem_cons.mp hs with rfl | hs
          · simpa using hhead e' he'
          · exact hfuture s hs e' (List.mem_cons_of_mem _ he')
        · rcases List.mem_cons.mp hs with rfl | hs
          · simpa using hhead e' he'
          · exact hfuture s (by rw [hstk]; exact List.mem_cons_of_mem _ hs) e'
              (List.mem_cons_of_mem _ he')
        · rcases List.mem_cons.mp hs with rfl | hs
          · simpa using hhead e' he'
          · exact hfuture s (by rw [hstk]; exact List.mem_cons_of_mem _ hs) e'
              (List.mem_cons_of_mem _ he')

/-- C1: worked time is added to the current session only when the phase
immediately before the event (`state[0]` after the shift, line 149) was
Running (1) or Unpaused (3): a step from any other phase leaves every
stored duration unchanged (a new session starts at duration 0).  In
particular a session clock-in at `t0`, pause at `t1`, unpause at `t2`,
clock-out at `t3` (`t0 < t1 < t2 < t3`) ends with duration
`(t1 - t0) + (t3 - t2)`, excluding the paused interval `(t2 - t1)`. -/
theorem c1_accumulation_rule :
    (∀ (i : Nat) (e : Event) (m m' : MachineState), step i e m = .ok m' →
      m.cur ≠ 1 → m.cur ≠ 3 →
      (m'.stack.map Session.duration = m.stack.map Session.duration ∨
       m'.stack.map Session.duration = 0 :: m.stack.map Session.duration)) ∧
    (∀ (t0 t1 t2 t3 : Int) (tag notes tg1 n1 tg2 n2 tg3 n3 : String),
      t0 < t1 → t1 < t2 → t2 < t3 →
      parse [⟨t0, .i, tag, notes⟩, ⟨t1, .p, tg1, n1⟩, ⟨t2, .u, tg2, n2⟩, ⟨t3, .o, tg3, n3⟩] =
        .ok [⟨t0, t3, tag, (t1 - t0) + (t3 - t2), notes⟩]) := by
  constructor
  · intro i e m m' h hn1 hn3
    rcases (step_ok_destruct h).2.2.2 with ⟨-, hs⟩ | ⟨hc, -⟩ | ⟨-, top, rest, hstk, hs⟩
    · exact Or.inr (by rw [hs]; simp)
    · rcases hc with hc | hc
      · exact absurd hc hn1
      · exact absurd hc hn3
    · exact Or.inl (by rw [hs, hstk]; simp)
  · intro t0 t1 t2 t3 tag notes tg1 n1 tg2 n2 tg3 n3 h01 h12 h23
    simp [parse, parseFrom, step, table, chars]

/-- C1 witness: the pause interval `[70, 80)` of a concrete
clock-in/pause/unpause/clock-out stream is excluded: the session lasts
`130` seconds on the wall clock but only `120` are counted. -/
theorem c1_accumulation_rule_witness :
    parse [⟨10, .i, "work", "start"⟩, ⟨70, .p, "work", ""⟩,
           ⟨80, .u, "work", ""⟩, ⟨140, .o, "work", ""⟩] =
      .ok [⟨10, 140, "work", 120, "start"⟩] := by
  have h := c1_accumulation_rule.2 10 70 80 140 "work" "start" "work" "" "work" "" "work" ""
    (by decide) (by decide) (by decide)
  norm_num at h
  exact h

/-- C2: whenever the events before `e` parse fine and `e`'s action is
illegal from the reached phase, `parse` fails with the error naming `e`'s
0-based line index, whatever comes after `e`: no session list is produced
for the stream. -/
theorem c2_illegal_transition_fatal :
    ∀ (pre : List Event) (e : Event) (rest : List Event) (m : MachineState),
      parseFrom 0 ⟨0, 0, []⟩ pre = .ok m →
      table m.cur (chars e.action) = -1 →
      parse (pre ++ e :: rest) = .error (.illegal pre.length e.action) := by
  intro pre e rest m hpre hbad
  simp only [parse, parseFrom_append, hpre]
  simp [parseFrom, step, hbad]

/-- C2 witness: a stream whose first line pauses with no prior clock-in
fails on line 0 and yields no sessions. -/
theorem c2_illegal_transition_fatal_witness :
    parse [⟨100, .p, "work", ""⟩] = .error (.illegal 0 .p) := by
  have h := c2_illegal_transition_fatal [] ⟨100, .p, "work", ""⟩ [] ⟨0, 0, []⟩ rfl (by decide)
  simpa using h

/-- C7: `duration_into_units` renders the literal seconds with suffix `s`
for unit `s`; for `m` and `h` it renders the quotient by 60 resp. 3600 as
a plain integer when the division is exact, else rounded to two decimal
places, suffixed with the unit; the four boundary cases of the spec
evaluate as stated. -/
theorem c7_duration_into_units :
    duration_into_units 3600 "h" = "1h" ∧
    duration_into_units 5400 "h" = "1.5h" ∧
    duration_into_units 61 "m" = "1.02m" ∧
    duration_into_units 59 "s" = "59s" ∧
    (∀ n : Int, duration_into_units n "s" = toString n ++ "s") ∧
    (∀ n : Int, n % 60 = 0 → duration_into_units n "m" = toString (n / 60) ++ "m") ∧
    (∀ n : Int, n % 3600 = 0 → duration_into_units n "h" = toString (n / 3600) ++ "h") ∧
    (∀ n : Int, n % 60 ≠ 0 →
      duration_into_units n "m" = reprCenti (pyRound ((n : ℚ) / 60 * 100)) ++ "m") ∧
    (∀ n : Int, n % 3600 ≠ 0 →
      duration_into_units n "h" = reprCenti (pyRound ((n : ℚ) / 3600 * 100)) ++ "h") := by
  refine ⟨by rfl, ?_, ?_, by rfl, ?_, ?_, ?_, ?_, ?_⟩
  · have h1 : pyRound (((5400 : Int) : ℚ) / 3600 * 100) = 150 := by norm_num [pyRound]
    unfold duration_into_units
    rw [if_neg (by decide), if_pos rfl, if_neg (by decide), h1]
    rfl
  · have h1 : pyRound (((61 : Int) : ℚ) / 60 * 100) = 102 := by norm_num [pyRound]
    unfold duration_into_units
    rw [if_pos rfl, if_neg (by decide), h1]
    rfl
  · intro n
    unfold duration_into_units
    rw [if_neg (by decide), if_neg (by decide)]
  · intro n hn
    unfold duration_into_units
    rw [if_pos rfl, if_pos hn]
  · intro n hn
    unfold duration_into_units
    rw [if_neg (by decide), if_pos rfl, if_pos hn]
  · intro n hn
    unfold duration_into_units
    rw [if_pos rfl, if_neg hn]
  · intro n hn
    unfold duration_into_units
    rw [if_neg (by decide), if_pos rfl, if_neg hn]

/-- C7 witness: two minutes of seconds with unit `m` render as `2m`. -/
theorem c7_duration_into_units_witness :
    duration_into_units 120 "m" = "2m" := by
  have h := c7_duration_into_units.2.2.2.2.2.1 120 (by decide)
  rw [h]
  rfl

/-- C8: a stream whose final phase is Running (1), Paused (2) or
Unpaused (3) — a missing final clock-out — is not an error: `parse`
returns the full session list, and on the concrete one-, two- and
three-event streams ending in each such phase the last session's duration
is exactly the time accrued up to the last seen event. -/
theorem c8_trailing_phase_accepted :
    (∀ (events : List Event) (m : MachineState),
      parseFrom 0 ⟨0, 0, []⟩ events = .ok m →
      (m.cur = 1 ∨ m.cur = 2 ∨ m.cur = 3) →
      parse events = .ok m.stack.reverse) ∧
    (∀ (t0 : Int) (tag notes : String),
      parse [⟨t0, .i, tag, notes⟩] = .ok [⟨t0, t0, tag, 0, notes⟩]) ∧
    (∀ (t0 t1 : Int) (tag notes tg1 n1 : String),
      parse [⟨t0, .i, tag, notes⟩, ⟨t1, .p, tg1, n1⟩] =
        .ok [⟨t0, t1, tag, t1 - t0, notes⟩]) ∧
    (∀ (t0 t1 t2 : Int) (tag notes tg1 n1 tg2 n2 : String),
      parse [⟨t0, .i, tag, notes⟩, ⟨t1, .p, tg1, n1⟩, ⟨t2, .u, tg2, n2⟩] =
        .ok [⟨t0, t2, tag, t1 - t0, notes⟩]) := by
  refine ⟨?_, ?_, ?_, ?_⟩
  · intro events m h _
    simp [parse, h]
  · intro t0 tag notes
    simp [parse, parseFrom, step, table, chars]
  · intro t0 t1 tag notes tg1 n1
    simp [parse, parseFrom, step, table, chars]
  · intro t0 t1 t2 tag notes tg1 n1 tg2 n2
    simp [parse, parseFrom, step, table, chars]

/-- C8 witness: a single clock-in (final phase Running) parses into one
zero-duration session. -/
theorem c8_trailing_phase_accepted_witness :
    parse [⟨5, .i, "a", "b"⟩] = .ok [⟨5, 5, "a", 0, "b"⟩] := by
  have h := c8_trailing_phase_accepted.1 [⟨5, .i, "a", "b"⟩] ⟨0, 1, [⟨5, 5, "a", 0, "b"⟩]⟩
    rfl (Or.inl rfl)
  simpa using h

/-- C4: with both bounds given (and no tag filter), the report filter
keeps exactly the sessions with `start_time ≥ begin` (inclusive) and
`last_timestamp < end` (exclusive): one with `start_time = begin` is
kept, one with `last_timestamp = end` is dropped. -/
theorem c4_filter_bounds :
    ∀ (data : List Session) (b e : Int) (s : Session),
      s ∈ reportFilter data (some b) (some e) none ↔
        s ∈ data ∧ s.start_time ≥ b ∧ s.last_timestamp < e := by
  intro data b e s
  unfold reportFilter
  simp only [List.mem_filter, decide_eq_true_eq,
    (List.perm_insertionSort sessionLE data).mem_iff]
  tauto

/-- C5: for every bucket-key function (hence every grouping granularity),
the summed durations of the grouped report equal the summed durations of
the sessions feeding it: the sort + adjacent merge loses no seconds. -/
theorem c5_grouping_preserves_sum :
    ∀ (keyf : Int → String) (data : List Session),
      ((group_report keyf data).map (fun r => r.2.2)).sum =
        (data.map Session.duration).sum := by
  intro keyf data
  unfold group_report mergeRows
  rw [List.map_reverse, List.sum_reverse, foldl_mergeStep_sum]
  have hperm :
      List.Perm
        (List.insertionSort keyLE
          (data.map (fun row => (keyf row.start_time, row.tag, row.duration))))
        (data.map (fun row => (keyf row.start_time, row.tag, row.duration))) :=
    List.perm_insertionSort _ _
  rw [(hperm.map (fun r => r.2.2)).sum_eq]
  simp [Function.comp_def]

/-- C6: under chronological (non-decreasing) timestamps, every session of
a successful parse satisfies `last_timestamp ≥ start_time` and
`0 ≤ duration ≤ last_timestamp - start_time`; and per step the stored
durations never decrease, increasing (by the non-negative elapsed time)
only when the phase immediately before the event was Running (1) or
Unpaused (3). -/
theorem c6_invariants :
    (∀ (events : List Event) (sessions : List Session),
      Chronological events → parse events = .ok sessions →
      ∀ s ∈ sessions, SessionInv s) ∧
    (∀ (i : Nat) (e : Event) (m m' : MachineState),
      step i e m = .ok m' →
      (∀ s ∈ m.stack, s.last_timestamp ≤ e.timestamp) →
      ((m.cur = 0 ∧ m'.stack.map Session.duration = 0 :: m.stack.map Session.duration)
       ∨ ((m.cur = 1 ∨ m.cur = 3) ∧ ∃ top rest, m.stack = top :: rest ∧
           m'.stack.map Session.duration =
             (top.duration + (e.timestamp - top.last_timestamp)) :: rest.map Session.duration ∧
           top.duration ≤ top.duration + (e.timestamp - top.last_timestamp))
       ∨ (¬(m.cur = 1 ∨ m.cur = 3) ∧
           m'.stack.map Session.duration = m.stack.map Session.duration))) := by
  constructor
  · intro events sessions hchron hp s hs
    unfold parse at hp
    cases hpf : parseFrom 0 ⟨0, 0, []⟩ events with
    | error err => rw [hpf] at hp; cases hp
    | ok m' =>
      rw [hpf] at hp
      simp only [Except.ok.injEq] at hp
      refine parseFrom_invariant hpf hchron ?_ ?_ s ?_
      · intro s hs; cases hs
      · intro s hs; cases hs
      · rw [← List.mem_reverse, hp]
        exact hs
  · intro i e m m' h hlast
    rcases (step_ok_destruct h).2.2.2 with ⟨hc, hnew⟩ | ⟨hc, top, rest, hstk, hnew⟩ |
        ⟨hc, top, rest, hstk, hnew⟩
    · exact Or.inl ⟨hc, by rw [hnew]; simp⟩
    · refine Or.inr (Or.inl ⟨hc, top, rest, hstk, by rw [hnew]; simp, ?_⟩)
      have := hlast top (by rw [hstk]; exact List.mem_cons_self _ _)
      omega
    · refine Or.inr (Or.inr ⟨by rw [hc]; norm_num, ?_⟩)
      rw [hnew, hstk]
      simp

/-- C6 witness: on a concrete chronological clock-in/clock-out stream the
resulting session satisfies the record invariant. -/
theorem c6_invariants_witness :
    SessionInv ⟨10, 70, "w", 60, "n"⟩ := by
  refine c6_invariants.1 [⟨10, .i, "w", "n"⟩, ⟨70, .o, "w", ""⟩] [⟨10, 70, "w", 60, "n"⟩]
    ?_ (by rfl) ⟨10, 70, "w", 60, "n"⟩ (by simp)
  refine List.Pairwise.cons ?_ ?_ <;> simp [Chronological]

/-- C10: `parse` never hits Python's `IndexError` on `stack[-1]`
(lines 150 and 152): every run either returns a session list or stops at
an illegal transition, because the only action legal from the initial
Idle phase is clock-in, which appends a session before any access. -/
theorem c10_no_empty_stack_access :
    ∀ events : List Event,
      (∃ sessions, parse events = .ok sessions) ∨
      (∃ j a, parse events = .error (.illegal j a)) := by
  intro events
  rcases @parseFrom_no_index events 0 ⟨0, 0, []⟩ (fun _ => rfl) with ⟨m', h⟩ | ⟨j, a, h⟩
  · exact Or.inl ⟨m'.stack.reverse, by simp [parse, h]⟩
  · exact Or.inr ⟨j, a, by simp [parse, h]⟩

theorem splitSpace_ne_nil (xs : List Char) : splitSpace xs ≠ [] := by
  cases xs with
  | nil => simp [splitSpace]
  | cons c rest =>
    simp only [splitSpace]
    split
    · simp
    · split <;> simp

/-- A string without a double space is one `split("  ")` piece. -/
theorem splitDouble_no_dbl : ∀ xs : List Char, hasDbl xs = false → splitDouble xs = [xs]
  | [], _ => rfl
  | [c], _ => rfl
  | c :: d :: rest, h => by
    rw [hasDbl] at h
    simp only [Bool.or_eq_false_iff, Bool.and_eq_false_iff] at h
    obtain ⟨hcd, hrest⟩ := h
    rw [splitDouble, if_neg ?_, splitDouble_no_dbl (d :: rest) hrest]
    rintro ⟨rfl, rfl⟩
    simp at hcd

/-- `split("  ")` cuts at the leftmost double space: if the part before
the cut contains no double space (even when followed by one more space),
the split is the prefix piece followed by the split of the suffix. -/
theorem splitDouble_append :
    ∀ xs ys : List Char, hasDbl (xs ++ [' ']) = false →
      splitDouble (xs ++ ' ' :: ' ' :: ys) = xs :: splitDouble ys
  | [], ys, _ => by
    rw [List.nil_append, splitDouble, if_pos ⟨rfl, rfl⟩]
  | [c], ys, h => by
    have hc : ¬ c = ' ' := by
      simpa [hasDbl] using h
    have hcd : ¬ (c = ' ' ∧ ' ' = ' ') := fun hx => hc hx.1
    rw [List.cons_append, List.nil_append, splitDouble, if_neg hcd, splitDouble,
      if_pos ⟨rfl, rfl⟩]
  | c :: d :: xs, ys, h => by
    rw [show (c :: d :: xs) ++ [' '] = c :: d :: (xs ++ [' ']) by simp, hasDbl] at h
    simp only [Bool.or_eq_false_iff, Bool.and_eq_false_iff] at h
    obtain ⟨hcd, hrest⟩ := h
    have hcd' : ¬ (c = ' ' ∧ d = ' ') := by
      rintro ⟨rfl, rfl⟩
      simp at hcd
    have ih := splitDouble_append (d :: xs) ys (by simpa using hrest)
    rw [List.cons_append] at ih
    rw [List.cons_append, List.cons_append, splitDouble, if_neg hcd', ih]

/-- `split(" ")` cuts at the first space when the prefix has none. -/
theorem splitSpace_append :
    ∀ a b : List Char, ' ' ∉ a → splitSpace (a ++ ' ' :: b) = a :: splitSpace b
  | [], b, _ => by
    rw [List.nil_append, splitSpace, if_pos rfl]
  | c :: a, b, h => by
    have hc : ¬ c = ' ' := fun hc => h (hc ▸ List.mem_cons_self _ _)
    have ih := splitSpace_append a b (fun ha => h (List.mem_cons_of_mem _ ha))
    rw [List.cons_append, splitSpace, if_neg hc, ih]

theorem joinSpace_pair (p q : List Char) (qs : List (List Char)) :
    joinSpace (p :: q :: qs) = p ++ ' ' :: joinSpace (q :: qs) := rfl

/-- `" ".join` undoes `split(" ")`. -/
theorem joinSpace_splitSpace : ∀ xs : List Char, joinSpace (splitSpace xs) = xs
  | [] => rfl
  | c :: rest => by
    have ih := joinSpace_splitSpace rest
    cases hs : splitSpace rest with
    | nil => exact absurd hs (splitSpace_ne_nil rest)
    | cons p ps =>
      by_cases hc : c = ' '
      · subst hc
        rw [splitSpace, if_pos rfl, hs, joinSpace_pair, ← hs, List.nil_append, ih]
      · rw [splitSpace, if_neg hc, hs]
        rw [hs] at ih
        cases ps with
        | nil =>
          show joinSpace [c :: p] = c :: rest
          show c :: p = c :: rest
          rw [show joinSpace [p] = p from rfl] at ih
          rw [ih]
        | cons q qs =>
          show joinSpace ((c :: p) :: q :: qs) = c :: rest
          rw [joinSpace_pair]
          have ih' : p ++ ' ' :: joinSpace (q :: qs) = rest := by
            rw [← joinSpace_pair]
            exact ih
          rw [← ih']
          simp

/-- C3 counterexample: a line whose notes contain a further double space
does not tokenize: `split("  ")` yields three pieces and the unpack
`tag, notes = tag_and_notes` raises `ValueError`, where the claim says
the line still tokenizes successfully into `(tag, full notes text)`. -/
theorem c3_counterexample :
    parse_row_tag_notes ("i 2024-01-01 09:00:00 work  note  extra".data) =
      .error "ValueError" := by rfl

/-- C3 (amended): the remainder after the action and the two timestamp
tokens is split on every occurrence of two consecutive spaces; with no
double-space separator the result is `(remainder, "")`, with exactly one
it is `(tag, notes)`, and a line whose notes contain a further double
space fails with `ValueError` instead of tokenizing. -/
theorem c3_tag_notes_split :
    ∀ a d t rem : List Char,
      ' ' ∉ a → ' ' ∉ d → ' ' ∉ t →
      pyStrip (a ++ ' ' :: (d ++ ' ' :: (t ++ ' ' :: rem))) =
        a ++ ' ' :: (d ++ ' ' :: (t ++ ' ' :: rem)) →
      ((hasDbl rem = false →
        parse_row_tag_notes (a ++ ' ' :: (d ++ ' ' :: (t ++ ' ' :: rem))) =
          .ok (rem, [])) ∧
       (∀ tag notes, rem = tag ++ ' ' :: ' ' :: notes →
        hasDbl (tag ++ [' ']) = false → hasDbl notes = false →
        parse_row_tag_notes (a ++ ' ' :: (d ++ ' ' :: (t ++ ' ' :: rem))) =
          .ok (tag, notes)) ∧
       (∀ tag n1 n2, rem = tag ++ ' ' :: ' ' :: (n1 ++ ' ' :: ' ' :: n2) →
        hasDbl (tag ++ [' ']) = false → hasDbl (n1 ++ [' ']) = false →
        hasDbl n2 = false →
        parse_row_tag_notes (a ++ ' ' :: (d ++ ' ' :: (t ++ ' ' :: rem))) =
          .error "ValueError")) := by
  intro a d t rem ha hd ht hstrip
  have hpipe : ∀ pieces : List (List Char),
      splitDouble rem = pieces →
      parse_row_tag_notes (a ++ ' ' :: (d ++ ' ' :: (t ++ ' ' :: rem))) =
        (let tag_and_notes := if pieces.length < 2 then pieces ++ [[]] else pieces
         match tag_and_notes with
         | [tag, notes] => .ok (tag, notes)
         | _ => .error "ValueError") := by
    intro pieces hp
    simp only [parse_row_tag_notes, hstrip, splitSpace_append _ _ ha,
      splitSpace_append _ _ hd, splitSpace_append _ _ ht, List.drop_succ_cons,
      List.drop_zero, joinSpace_splitSpace, hp]
  refine ⟨?_, ?_, ?_⟩
  · intro h1
    rw [hpipe [rem] (splitDouble_no_dbl rem h1)]
    rfl
  · intro tag notes hrem htag hnotes
    rw [hpipe [tag, notes] ?_]
    · rfl
    · rw [hrem, splitDouble_append tag notes htag, splitDouble_no_dbl notes hnotes]
  · intro tag n1 n2 hrem htag hn1 hn2
    rw [hpipe [tag, n1, n2] ?_]
    · rfl
    · rw [hrem, splitDouble_append tag _ htag, splitDouble_append n1 n2 hn1,
        splitDouble_no_dbl n2 hn2]

/-- C3 witness: a line with exactly one double-space separator tokenizes
into the tag and the full (single-spaced) notes text. -/
theorem c3_tag_notes_split_witness :
    parse_row_tag_notes ("i".data ++ ' ' :: ("2024-01-01".data ++ ' ' ::
        ("09:00:00".data ++ ' ' :: "work  some note".data))) =
      .ok ("work".data, "some note".data) := by
  have h := (c3_tag_notes_split "i".data "2024-01-01".data "09:00:00".data
      "work  some note".data (by decide) (by decide) (by decide) (by decide)).2.1
    "work".data "some note".data (by decide) (by decide) (by decide)
  exact h

theorem lookupDay_addToGroup (groups : List (String × List ResultRow))
    (row : ResultRow) (d : String) :
    lookupDay d (addToGroup groups row) =
      if d = row.day then some ((lookupDay d groups).getD [] ++ [row])
      else lookupDay d groups := by
  induction groups with
  | nil =>
    by_cases hd : d = row.day
    · simp [addToGroup, lookupDay, hd]
    · have hd' : ¬ row.day = d := fun h => hd h.symm
      simp [addToGroup, lookupDay, hd, hd']
  | cons g rest ih =>
    obtain ⟨k, rs⟩ := g
    by_cases hk : k = row.day
    · by_cases hd : d = row.day
      · have hkd : k = d := by rw [hk, hd]
        simp [addToGroup, lookupDay, hk, hd, hkd]
      · have hkd : ¬ k = d := fun h => hd (by rw [← h, hk])
        have hd2 : ¬ row.day = d := fun h => hd h.symm
        simp [addToGroup, lookupDay, hk, hd, hkd, hd2]
    · by_cases hkd : k = d
      · have hd : ¬ d = row.day := fun h => hk (by rw [hkd, h])
        simp [addToGroup, lookupDay, hk, hkd, hd]
      · simp [addToGroup, lookupDay, hk, hkd, ih]

theorem lookupDay_foldl (rows : List ResultRow)
    (acc : List (String × List ResultRow)) (d : String) :
    lookupDay d (rows.foldl addToGroup acc) =
      if lookupDay d acc = none ∧ rows.filter (fun r => decide (r.day = d)) = []
      then none
      else some ((lookupDay d acc).getD [] ++
        rows.filter (fun r => decide (r.day = d))) := by
  induction rows generalizing acc with
  | nil =>
    cases h : lookupDay d acc <;> simp [h]
  | cons r rest ih =>
    rw [List.foldl_cons, ih]
    rw [lookupDay_addToGroup]
    by_cases hd : d = r.day
    · cases h : lookupDay d acc <;>
        simp [h, List.filter_cons, ← hd]
    · have hne : ¬ r.day = d := fun h => hd h.symm
      simp [List.filter_cons, hne, hd]

/-- The rows grouped under day `d` are exactly the result rows of day
`d`, in order. -/
theorem groupByDay_lookup (rows : List ResultRow) (d : String) :
    lookupDay d (groupByDay rows) =
      if rows.filter (fun r => decide (r.day = d)) = [] then none
      else some (rows.filter (fun r => decide (r.day = d))) := by
  rw [groupByDay, lookupDay_foldl]
  simp [lookupDay]

theorem addToGroup_fst (groups : List (String × List ResultRow))
    (row : ResultRow) :
    (addToGroup groups row).map Prod.fst =
      if row.day ∈ groups.map Prod.fst then groups.map Prod.fst
      else groups.map Prod.fst ++ [row.day] := by
  induction groups with
  | nil => simp [addToGroup]
  | cons g rest ih =>
    obtain ⟨k, rs⟩ := g
    by_cases hk : k = row.day
    · subst hk
      simp [addToGroup]
    · have hk2 : ¬ row.day = k := fun h => hk h.symm
      by_cases hmem : row.day ∈ rest.map Prod.fst <;>
        simp [addToGroup, hk, hk2, hmem, ih]

theorem foldl_addToGroup_keys_nodup (rows : List ResultRow)
    (acc : List (String × List ResultRow))
    (h : (acc.map Prod.fst).Nodup) :
    ((rows.foldl addToGroup acc).map Prod.fst).Nodup := by
  induction rows generalizing acc with
  | nil => exact h
  | cons r rest ih =>
    rw [List.foldl_cons]
    refine ih (addToGroup acc r) ?_
    rw [addToGroup_fst]
    by_cases hmem : r.day ∈ acc.map Prod.fst
    · simpa [hmem] using h
    · simp only [hmem, if_false, ite_false]
      simp [List.nodup_append, h, hmem]

theorem groupByDay_keys_nodup (rows : List ResultRow) :
    ((groupByDay rows).map Prod.fst).Nodup :=
  foldl_addToGroup_keys_nodup rows [] (by simp)

theorem lookupDay_eq_none_iff (groups : List (String × List ResultRow))
    (d : String) :
    lookupDay d groups = none ↔ d ∉ groups.map Prod.fst := by
  induction groups with
  | nil => simp [lookupDay]
  | cons g rest ih =>
    obtain ⟨k, rs⟩ := g
    by_cases hk : k = d
    · simp [lookupDay, hk]
    · have hk2 : ¬ d = k := fun h => hk h.symm
      simp [lookupDay, hk, hk2, ih]

theorem lookupDay_of_mem (groups : List (String × List ResultRow))
    (k : String) (rs : List ResultRow)
    (hnd : (groups.map Prod.fst).Nodup) (hmem : (k, rs) ∈ groups) :
    lookupDay k groups = some rs := by
  induction groups with
  | nil => cases hmem
  | cons g rest ih =>
    obtain ⟨k', rs'⟩ := g
    rcases List.mem_cons.mp hmem with heq | hmem'
    · obtain ⟨rfl, rfl⟩ := Prod.mk.injEq .. ▸ heq
      simp [lookupDay]
    · have hk : k ∈ rest.map Prod.fst :=
        List.mem_map.mpr ⟨(k, rs), hmem', rfl⟩
      have hne : ¬ k' = k := by
        intro h
        subst h
        exact (List.nodup_cons.mp (by simpa using hnd)).1 hk
      simp only [lookupDay, hne, if_false, ite_false]
      exact ih (List.nodup_cons.mp (by simpa using hnd)).2 hmem'

theorem mem_buildResults {dayKey monthKey : Int → String} {stack : List Session}
    {tag : String} {b e : Option String} {r : ResultRow} :
    r ∈ buildResults dayKey monthKey stack tag b e ↔
      ∃ s ∈ stack, invoiceMatches monthKey tag b e s = true ∧
        r = ⟨dayKey s.start_time, s.notes,
          (s.duration : ℚ) / 3600, (s.duration : ℚ) / 60⟩ := by
  simp only [buildResults, List.mem_filterMap]
  constructor
  · rintro ⟨s, hs, hr⟩
    by_cases hm : invoiceMatches monthKey tag b e s
    · rw [if_pos hm] at hr
      exact ⟨s, hs, hm, (Option.some_inj.mp hr).symm⟩
    · rw [if_neg hm] at hr
      cases hr
  · rintro ⟨s, hs, hm, rfl⟩
    exact ⟨s, hs, by rw [if_pos hm]⟩

theorem buildResults_filter_map_minutes (dayKey monthKey : Int → String)
    (stack : List Session) (tag : String) (b e : Option String) (d : String) :
    ((buildResults dayKey monthKey stack tag b e).filter
        (fun r => decide (r.day = d))).map (fun r => r.minutes) =
      (stack.filter (fun s => invoiceMatches monthKey tag b e s &&
          decide (dayKey s.start_time = d))).map
        (fun s => (s.duration : ℚ) / 60) := by
  induction stack with
  | nil => rfl
  | cons s rest ih =>
    simp only [buildResults, List.filterMap_cons] at ih ⊢
    by_cases hm : invoiceMatches monthKey tag b e s
    · by_cases hd : dayKey s.start_time = d
      · simp [hm, hd, List.filter_cons, ih]
      · simp [hm, hd, List.filter_cons, ih]
    · simp [hm, List.filter_cons, ih]

theorem list_sum_map_div (l : List ℚ) (c : ℚ) :
    (l.map (fun x => x / c)).sum = l.sum / c := by
  induction l with
  | nil => simp
  | cons x xs ih => simp [ih, add_div]

theorem string_length_pos_of_ne_empty {s : String} (h : s ≠ "") : 0 < s.length := by
  cases s with
  | mk data =>
    cases data with
    | nil => exact absurd rfl h
    | cons c cs => simp

/-- C9: for a single tag the invoice view emits exactly one line item per
calendar day with matching sessions (dates are distinct and a date
appears iff some matching session starts on it); each item's notes field
is the newline-join of the set of unique non-empty session notes of its
day (stated order-independently via the deduplicated parts list); its
quantity is the summed matching duration in seconds divided by 3600 as
an exact rational; and the items are sorted ascending by date. -/
theorem c9_invoice_line_items :
    ∀ (dayKey monthKey : Int → String) (stack : List Session) (tag : String)
      (b e : Option String),
      ((line_items dayKey monthKey stack tag b e).map (fun it => it.date)).Nodup ∧
      (∀ d, d ∈ (line_items dayKey monthKey stack tag b e).map (fun it => it.date) ↔
        ∃ s ∈ stack, invoiceMatches monthKey tag b e s = true ∧
          dayKey s.start_time = d) ∧
      (∀ it ∈ line_items dayKey monthKey stack tag b e,
        it.notesParts.Nodup ∧
        it.notes = String.intercalate "\n" it.notesParts ∧
        (∀ nt, nt ∈ it.notesParts ↔ nt ≠ "" ∧
          ∃ s ∈ stack, invoiceMatches monthKey tag b e s = true ∧
            dayKey s.start_time = it.date ∧ s.notes = nt) ∧
        it.quantity =
          ((stack.filter (fun s => invoiceMatches monthKey tag b e s &&
              decide (dayKey s.start_time = it.date))).map
            (fun s => (s.duration : ℚ))).sum / 3600) ∧
      List.Sorted itemLE (line_items dayKey monthKey stack tag b e) := by
  intro dayKey monthKey stack tag b e
  have hperm : List.Perm (line_items dayKey monthKey stack tag b e)
      ((groupByDay (buildResults dayKey monthKey stack tag b e)).map
        (fun g => mkLineItem g.1 g.2)) :=
    List.perm_insertionSort _ _
  have hkeysnd : ((groupByDay (buildResults dayKey monthKey stack tag b e)).map
      Prod.fst).Nodup := groupByDay_keys_nodup _
  have hdates0 : ((groupByDay (buildResults dayKey monthKey stack tag b e)).map
      (fun g => mkLineItem g.1 g.2)).map (fun it => it.date) =
      (groupByDay (buildResults dayKey monthKey stack tag b e)).map Prod.fst := by
    rw [List.map_map]
    rfl
  have hgroup_content : ∀ g ∈ groupByDay (buildResults dayKey monthKey stack tag b e),
      g.2 = (buildResults dayKey monthKey stack tag b e).filter
        (fun r => decide (r.day = g.1)) := by
    intro g hg
    have hl := lookupDay_of_mem _ g.1 g.2 hkeysnd (by cases g; exact hg)
    rw [groupByDay_lookup] at hl
    by_cases hf : (buildResults dayKey monthKey stack tag b e).filter
        (fun r => decide (r.day = g.1)) = []
    · rw [if_pos hf] at hl
      cases hl
    · rw [if_neg hf] at hl
      exact (Option.some_inj.mp hl).symm
  refine ⟨?_, ?_, ?_, ?_⟩
  · rw [(hperm.map (fun it => it.date)).nodup_iff, hdates0]
    exact hkeysnd
  · intro d
    have hiff : d ∈ (groupByDay (buildResults dayKey monthKey stack tag b e)).map
        Prod.fst ↔
        lookupDay d (groupByDay (buildResults dayKey monthKey stack tag b e)) ≠ none := by
      rw [Ne, lookupDay_eq_none_iff, not_not]
    rw [(hperm.map (fun it => it.date)).mem_iff, hdates0, hiff, groupByDay_lookup]
    by_cases hf : (buildResults dayKey monthKey stack tag b e).filter
        (fun r => decide (r.day = d)) = []
    · rw [if_pos hf]
      simp only [ne_eq, not_true_eq_false, false_iff, not_exists]
      rintro s ⟨hs, hm, hd⟩
      have hmem : (⟨dayKey s.start_time, s.notes, (s.duration : ℚ) / 3600,
          (s.duration : ℚ) / 60⟩ : ResultRow) ∈
          (buildResults dayKey monthKey stack tag b e).filter
            (fun r => decide (r.day = d)) := by
        rw [List.mem_filter]
        exact ⟨mem_buildResults.mpr ⟨s, hs, hm, rfl⟩, by simpa using hd⟩
      rw [hf] at hmem
      cases hmem
    · rw [if_neg hf]
      constructor
      · intro _
        obtain ⟨r, hr⟩ := List.exists_mem_of_ne_nil _ hf
        rw [List.mem_filter] at hr
        obtain ⟨s, hs, hm, hrs⟩ := mem_buildResults.mp hr.1
        refine ⟨s, hs, hm, ?_⟩
        have hd : r.day = d := by simpa using hr.2
        rw [← hd, hrs]
      · intro _
        simp
  · intro it hit
    obtain ⟨g, hg, hgit⟩ := List.mem_map.mp (hperm.mem_iff.mp hit)
    have hcontent := hgroup_content g hg
    subst hgit
    have hdate : (mkLineItem g.1 g.2).date = g.1 := rfl
    refine ⟨List.nodup_dedup _, rfl, ?_, ?_⟩
    · intro nt
      show nt ∈ (((g.2.map (fun r => r.notes)).filter
          (fun nt => decide (nt.length > 0))).dedup) ↔ _
      rw [List.mem_dedup, List.mem_filter, hdate, hcontent]
      constructor
      · rintro ⟨hmem, hlen⟩
        obtain ⟨r, hr, hrnt⟩ := List.mem_map.mp hmem
        rw [List.mem_filter] at hr
        obtain ⟨s, hs, hm, hrs⟩ := mem_buildResults.mp hr.1
        have hday : r.day = g.1 := by simpa using hr.2
        refine ⟨?_, s, hs, hm, ?_, ?_⟩
        · intro hc
          rw [hc] at hlen
          simp at hlen
        · rw [← hday, hrs]
        · rw [← hrnt, hrs]
      · rintro ⟨hne, s, hs, hm, hd, hnt⟩
        constructor
        · refine List.mem_map.mpr ⟨⟨dayKey s.start_time, s.notes,
            (s.duration : ℚ) / 3600, (s.duration : ℚ) / 60⟩, ?_, hnt⟩
          rw [List.mem_filter]
          exact ⟨mem_buildResults.mpr ⟨s, hs, hm, rfl⟩, by simpa using hd⟩
        · simp only [decide_eq_true_eq]
          exact string_length_pos_of_ne_empty hne
    · show ((g.2.map (fun r => r.minutes)).sum) / 60 = _
      rw [hdate, hcontent, buildResults_filter_map_minutes]
      have : (fun s : Session => (s.duration : ℚ) / 60) =
          (fun x : ℚ => x / 60) ∘ (fun s : Session => (s.duration : ℚ)) := rfl
      rw [this, ← List.map_map, list_sum_map_div, div_div]
      norm_num
  · exact List.sorted_insertionSort itemLE _

/-- C9 witness: a single matching one-hour session yields one line item
whose quantity is its 3600 seconds divided by 3600. -/
theorem c9_invoice_line_items_witness :
    (([(⟨0, 10, "w", 3600, "n"⟩ : Session)].filter (fun s =>
        invoiceMatches (fun _ => "m1") "w" none none s &&
        decide ((fun _ : Int => "d1") s.start_time = "d1"))).map
      (fun s => (s.duration : ℚ))).sum / 3600 = 1 := by
  have hval : line_items (fun _ => "d1") (fun _ => "m1")
      [⟨0, 10, "w", 3600, "n"⟩] "w" none none = [⟨"d1", ["n"], "n", 1⟩] := by
    simp [line_items, buildResults, invoiceMatches, groupByDay, addToGroup, mkLineItem,
      List.insertionSort, List.orderedInsert, List.filterMap, List.dedup, List.filter,
      List.pwFilter, show ("n" : String).length = 1 from rfl,
      show "\n".intercalate ["n"] = "n" from rfl]
    norm_num
  have hmem : (⟨"d1", ["n"], "n", 1⟩ : LineItem) ∈
      line_items (fun _ => "d1") (fun _ => "m1")
        [⟨0, 10, "w", 3600, "n"⟩] "w" none none := by
    rw [hval]
    exact List.mem_singleton.mpr rfl
  have h := (c9_invoice_line_items (fun _ => "d1") (fun _ => "m1")
      [⟨0, 10, "w", 3600, "n"⟩] "w" none none).2.2.1 ⟨"d1", ["n"], "n", 1⟩ hmem
  exact h.2.2.2.symm

end Countdown

